import Mathlib

/-!
Verification of the CodeGrinder daycare registry and grading-tool logic.

The Go source is shallowly embedded:

* `daycares.Expire`, `daycares.Insert`, `daycares.Assign` (the TA's in-memory
  daycare registry) are embedded as pure functions over an association list
  `Registry := List (String × DaycareRegistration)` that plays the role of the
  Go map `map[string]*DaycareRegistration`; the list order stands for the
  (unspecified) map iteration order, and the current wall-clock time and the
  random point drawn by `rand.Intn` are passed explicitly.
* `DaycareRegistration.ComputeSignature` is embedded together with real
  implementations of SHA-256, HMAC and base64 over byte lists, a UTF-8
  encoder, and the RFC3339 UTC second-resolution time formatter used by
  `reg.Time.Round(time.Second).UTC().Format(time.RFC3339)`.  Times are
  integers counting nanoseconds since the Unix epoch, as in Go's
  `time.Time`/`time.Duration` arithmetic.
* Go compares strings byte-wise; since UTF-8 preserves code-point order this
  is the lexicographic order on `String.data`, which is embedded below as a
  boolean comparison that the kernel can evaluate.
* The step-advancing tail of `grind`'s `CommandGrade` is embedded as a pure
  function from the saved commit, the problem's steps and the student's
  directory state to the successor state plus the action taken.
-/

namespace Codegrinder

/-! ## Byte-wise string order (Go `<` / `sort.Strings` / `sort.SearchStrings`) -/

/-- Lexicographic strict order on character lists, by code point.  On UTF-8
encoded strings this agrees with Go's byte-wise string `<`. -/
def charsLt : List Char → List Char → Bool
  | [], [] => false
  | [], _ :: _ => true
  | _ :: _, [] => false
  | a :: as, b :: bs => decide (a < b) || (a == b && charsLt as bs)

/-- Go string `<`. -/
def strLt (a b : String) : Bool := charsLt a.data b.data

/-- Go string `<=` (as used by `sort.SearchStrings` via `a[i] >= x`). -/
def strLe (a b : String) : Bool := !(strLt b a)

/-- The propositional form of the byte-wise string order, used as the sorting
relation everywhere the Go source sorts or binary-searches strings. -/
def strRel (a b : String) : Prop := strLe a b = true

instance : DecidableRel strRel := fun a b => instDecidableEqBool (strLe a b) true

/-- Go `sort.Strings`: the unique `strRel`-sorted permutation of the input. -/
def sortStrings (l : List String) : List String := List.insertionSort strRel l

/-! ## SHA-256, HMAC-SHA-256 and base64 over byte lists

Byte-level embeddings of the Go standard-library primitives used by
`DaycareRegistration.ComputeSignature` (`crypto/sha256`, `crypto/hmac`,
`encoding/base64`).  Bytes are naturals below 256; machine words are naturals
reduced modulo `2^32` explicitly. -/

/-- Truncation to a 32-bit word. -/
def w32 (n : Nat) : Nat := n % 4294967296

/-- Right rotation of a 32-bit word. -/
def rotr32 (n x : Nat) : Nat := w32 ((x >>> n) ||| (x <<< (32 - n)))

/-- Bitwise complement of a 32-bit word. -/
def not32 (x : Nat) : Nat := 4294967295 ^^^ x

def sigmaBig0 (x : Nat) : Nat := rotr32 2 x ^^^ rotr32 13 x ^^^ rotr32 22 x

def sigmaBig1 (x : Nat) : Nat := rotr32 6 x ^^^ rotr32 11 x ^^^ rotr32 25 x

def sigmaSmall0 (x : Nat) : Nat := rotr32 7 x ^^^ rotr32 18 x ^^^ (x >>> 3)

def sigmaSmall1 (x : Nat) : Nat := rotr32 17 x ^^^ rotr32 19 x ^^^ (x >>> 10)

def chWord (x y z : Nat) : Nat := (x &&& y) ^^^ (not32 x &&& z)

def majWord (x y z : Nat) : Nat := (x &&& y) ^^^ (x &&& z) ^^^ (y &&& z)

/-- The 64 SHA-256 round constants. -/
def sha256K : List Nat :=
  [1116352408, 1899447441, 3049323471, 3921009573,
   961987163, 1508970993, 2453635748, 2870763221,
   3624381080, 310598401, 607225278, 1426881987,
   1925078388, 2162078206, 2614888103, 3248222580,
   3835390401, 4022224774, 264347078, 604807628,
   770255983, 1249150122, 1555081692, 1996064986,
   2554220882, 2821834349, 2952996808, 3210313671,
   3336571891, 3584528711, 113926993, 338241895,
   666307205, 773529912, 1294757372, 1396182291,
   1695183700, 1986661051, 2177026350, 2456956037,
   2730485921, 2820302411, 3259730800, 3345764771,
   3516065817, 3600352804, 4094571909, 275423344,
   430227734, 506948616, 659060556, 883997877,
   958139571, 1322822218, 1537002063, 1747873779,
   1955562222, 2024104815, 2227730452, 2361852424,
   2428436474, 2756734187, 3204031479, 3329325298]

/-- One SHA-256 working state: the eight 32-bit registers. -/
structure Hash8 where
  a : Nat
  b : Nat
  c : Nat
  d : Nat
  e : Nat
  f : Nat
  g : Nat
  h : Nat

/-- The SHA-256 initial hash value. -/
def sha256H0 : Hash8 :=
  ⟨1779033703, 3144134277, 1013904242, 2773480762,
   1359893119, 2600822924, 528734635, 1541459225⟩

/-- One SHA-256 compression round; `kw` is the pair of round constant and
message-schedule word. -/
def sha256Round (st : Hash8) (kw : Nat × Nat) : Hash8 :=
  let t1 := w32 (st.h + sigmaBig1 st.e + chWord st.e st.f st.g + kw.1 + kw.2)
  let t2 := w32 (sigmaBig0 st.a + majWord st.a st.b st.c)
  ⟨w32 (t1 + t2), st.a, st.b, st.c, w32 (st.d + t1), st.e, st.f, st.g⟩

/-- Big-endian 32-bit words from a byte list (fuel-driven structural
recursion; the fuel is always at least the list length). -/
def bytesToWords : Nat → List Nat → List Nat
  | 0, _ => []
  | _, [] => []
  | fuel + 1, l =>
      (l.take 4).foldl (fun acc b => acc * 256 + b) 0 :: bytesToWords fuel (l.drop 4)

/-- Extend the 16 message words of one block to the 64 schedule words. -/
def sha256Schedule (ws : List Nat) : List Nat :=
  (List.range 48).foldl
    (fun acc _ =>
      let n := acc.length
      acc ++ [w32 (sigmaSmall1 (acc.getD (n - 2) 0) + acc.getD (n - 7) 0 +
        sigmaSmall0 (acc.getD (n - 15) 0) + acc.getD (n - 16) 0)])
    ws

/-- Compress one 64-byte block into the running hash state. -/
def sha256Block (st : Hash8) (block : List Nat) : Hash8 :=
  let ws := sha256Schedule (bytesToWords block.length block)
  let r := (sha256K.zip ws).foldl sha256Round st
  ⟨w32 (st.a + r.a), w32 (st.b + r.b), w32 (st.c + r.c), w32 (st.d + r.d),
   w32 (st.e + r.e), w32 (st.f + r.f), w32 (st.g + r.g), w32 (st.h + r.h)⟩

/-- Split a byte list into 64-byte blocks (fuel-driven). -/
def chunks64 : Nat → List Nat → List (List Nat)
  | 0, _ => []
  | _, [] => []
  | fuel + 1, l => l.take 64 :: chunks64 fuel (l.drop 64)

/-- Big-endian bytes of a value, most significant first. -/
def beBytes (k n : Nat) : List Nat :=
  (List.range k).map (fun i => (n >>> (8 * (k - 1 - i))) &&& 255)

/-- SHA-256 padding: a `0x80` byte, zeros to 56 mod 64, and the bit length
as a 64-bit big-endian quantity. -/
def sha256Pad (msg : List Nat) : List Nat :=
  msg ++ 128 :: List.replicate ((119 - msg.length % 64) % 64) 0 ++ beBytes 8 (8 * msg.length)

/-- SHA-256 of a byte list, as the 32-byte digest. -/
def sha256 (msg : List Nat) : List Nat :=
  let padded := sha256Pad msg
  let st := (chunks64 padded.length padded).foldl sha256Block sha256H0
  [st.a, st.b, st.c, st.d, st.e, st.f, st.g, st.h].flatMap (beBytes 4)

/-- HMAC-SHA-256 (Go `crypto/hmac` with `sha256.New`): block size 64. -/
def hmacSha256 (key msg : List Nat) : List Nat :=
  let k0 := if 64 < key.length then sha256 key else key
  let k := k0 ++ List.replicate (64 - k0.length) 0
  sha256 (k.map (fun b => b ^^^ 92) ++ sha256 (k.map (fun b => b ^^^ 54) ++ msg))

/-- The standard base64 alphabet. -/
def b64Alphabet : List Char :=
  "ABCDEFGHIJKLMNOPQRSTUVWXYZabcdefghijklmnopqrstuvwxyz0123456789+/".data

def b64Char (i : Nat) : Char := b64Alphabet.getD i 'A'

/-- Base64 encoding with `=` padding (Go `base64.StdEncoding`), fuel-driven
over 3-byte groups. -/
def base64Groups : Nat → List Nat → List Char
  | 0, _ => []
  | _, [] => []
  | _ + 1, [b0] =>
      let n := b0 * 65536
      [b64Char (n >>> 18), b64Char ((n >>> 12) &&& 63), '=', '=']
  | _ + 1, [b0, b1] =>
      let n := b0 * 65536 + b1 * 256
      [b64Char (n >>> 18), b64Char ((n >>> 12) &&& 63), b64Char ((n >>> 6) &&& 63), '=']
  | fuel + 1, b0 :: b1 :: b2 :: rest =>
      let n := b0 * 65536 + b1 * 256 + b2
      b64Char (n >>> 18) :: b64Char ((n >>> 12) &&& 63) :: b64Char ((n >>> 6) &&& 63) ::
        b64Char (n &&& 63) :: base64Groups fuel rest

def base64Encode (l : List Nat) : String := String.mk (base64Groups l.length l)

/-! ## UTF-8 bytes and URL query escaping -/

/-- UTF-8 encoding of one code point (Go strings hold UTF-8 bytes). -/
def charUtf8 (c : Char) : List Nat :=
  let n := c.toNat
  if n < 128 then [n]
  else if n < 2048 then [192 ||| (n >>> 6), 128 ||| (n &&& 63)]
  else if n < 65536 then
    [224 ||| (n >>> 12), 128 ||| ((n >>> 6) &&& 63), 128 ||| (n &&& 63)]
  else
    [240 ||| (n >>> 18), 128 ||| ((n >>> 12) &&& 63), 128 ||| ((n >>> 6) &&& 63),
     128 ||| (n &&& 63)]

/-- The UTF-8 bytes of a string. -/
def utf8Bytes (s : String) : List Nat := s.data.flatMap charUtf8

/-- Upper-case hexadecimal digit, as a byte. -/
def hexDigit (n : Nat) : Nat := if n < 10 then 48 + n else 55 + n

/-- Go `url.QueryEscape` on one byte: alphanumerics and `-_.~` are kept,
space becomes `+`, anything else percent-escapes. -/
def escapeByte (b : Nat) : List Nat :=
  if (65 ≤ b ∧ b ≤ 90) ∨ (97 ≤ b ∧ b ≤ 122) ∨ (48 ≤ b ∧ b ≤ 57) ∨
      b = 45 ∨ b = 95 ∨ b = 46 ∨ b = 126 then [b]
  else if b = 32 then [43]
  else [37, hexDigit (b >>> 4), hexDigit (b &&& 15)]

def queryEscape (s : String) : List Nat := (utf8Bytes s).flatMap escapeByte

/-- Modelled from the spec: the repository's `encode` helper for
`url.Values` (its definition is outside the sources at hand; only the call in
`ComputeSignature` is).  Per the spec, the HMAC canonical form is
URL-encoded with `=`/`&` separators and keys sorted lexicographically, and is
the byte-exact input to HMAC-SHA-256. -/
def encode (v : List (String × String)) : List Nat :=
  let sorted := List.insertionSort (fun p q : String × String => strRel p.1 q.1) v
  List.intercalate [38] (sorted.map (fun p => queryEscape p.1 ++ 61 :: queryEscape p.2))

/-! ## Time

Times are nanoseconds since the Unix epoch (`Int`), durations nanoseconds.
`time.Since(t)` is `now - t` with `now` passed explicitly. -/

/-- Nanoseconds in one second. -/
def nsPerSecond : Int := 1000000000

/-- Nanoseconds in one minute (Go `time.Minute`). -/
def nsPerMinute : Int := 60000000000

/-- Go `t.Round(time.Second)` expressed in whole seconds: the nearest second,
halves rounding away from zero. -/
def roundToSecond (t : Int) : Int :=
  if 0 ≤ t then (t + 500000000) / nsPerSecond
  else -(((-t) + 500000000) / nsPerSecond)

/-- Civil date from days since the Unix epoch (proleptic Gregorian calendar,
as Go's `time` package computes it).  Integer division here is Euclidean, so
it floors for the positive divisors used. -/
def civilFromDays (z0 : Int) : Int × Int × Int :=
  let z := z0 + 719468
  let era := z / 146097
  let doe := z - era * 146097
  let yoe := (doe - doe / 1460 + doe / 36524 - doe / 146096) / 365
  let y := yoe + era * 400
  let doy := doe - (365 * yoe + yoe / 4 - yoe / 100)
  let mp := (5 * doy + 2) / 153
  let d := doy - (153 * mp + 2) / 5 + 1
  let m := mp + (if mp < 10 then 3 else -9)
  (y + (if m ≤ 2 then 1 else 0), m, d)

/-- Decimal digits padded to width 2. -/
def pad2 (n : Int) : String := if n < 10 then "0" ++ toString n else toString n

/-- Decimal digits padded to width 4 (year field). -/
def pad4 (n : Int) : String :=
  if n < 10 then "000" ++ toString n
  else if n < 100 then "00" ++ toString n
  else if n < 1000 then "0" ++ toString n
  else toString n

/-- Go `time.Time.UTC().Format(time.RFC3339)` at whole-second resolution:
`YYYY-MM-DDTHH:MM:SSZ`, from seconds since the Unix epoch. -/
def rfc3339UTC (secs : Int) : String :=
  let days := secs / 86400
  let sod := secs % 86400
  let ymd := civilFromDays days
  pad4 ymd.1 ++ "-" ++ pad2 ymd.2.1 ++ "-" ++ pad2 ymd.2.2 ++ "T" ++
    pad2 (sod / 3600) ++ ":" ++ pad2 (sod % 3600 / 60) ++ ":" ++ pad2 (sod % 60) ++ "Z"

/-! ## DaycareRegistration and ComputeSignature -/

/-- The registration a daycare worker POSTs to the TA every registration
interval. -/
structure DaycareRegistration where
  Hostname : String
  ProblemTypes : List String
  Capacity : Int
  Time : Int
  Version : String
  Signature : String
deriving DecidableEq

/-- Embedding of `DaycareRegistration.ComputeSignature`.  The Go method sorts
`reg.ProblemTypes` in place; the embedding returns the signature together
with the updated receiver.  The canonical form gathers `hostname`, each
`problemType-<n>` of the sorted list, `capacity`, the time rounded to the
second in UTC RFC3339, and `version`, URL-encodes it, and signs it with
HMAC-SHA-256 under `secret`, base64-encoded. -/
def ComputeSignature (secret : String) (reg : DaycareRegistration) :
    String × DaycareRegistration :=
  let sorted := sortStrings reg.ProblemTypes
  let reg1 := { reg with ProblemTypes := sorted }
  let v : List (String × String) :=
    ("hostname", reg1.Hostname) ::
    (sorted.enum.map (fun pe => ("problemType-" ++ toString pe.1, pe.2))) ++
    [("capacity", toString reg1.Capacity),
     ("time", rfc3339UTC (roundToSecond reg1.Time)),
     ("version", reg1.Version)]
  (base64Encode (hmacSha256 (utf8Bytes secret) (encode v)), reg1)

/-! ## The daycare registry

The Go map `map[string]*DaycareRegistration` becomes an association list in
iteration order.  `regLookup`/`mapInsert` model map read and write. -/

abbrev Registry := List (String × DaycareRegistration)

/-- Map read: the registration stored under a hostname. -/
def regLookup (m : Registry) (k : String) : Option DaycareRegistration :=
  match m with
  | [] => none
  | (h, r) :: rest => if h = k then some r else regLookup rest k

/-- Map write: replace the entry under `k` in place, or append a new one. -/
def mapInsert (m : Registry) (k : String) (v : DaycareRegistration) : Registry :=
  match m with
  | [] => [(k, v)]
  | (h, r) :: rest => if h = k then (k, v) :: rest else (h, r) :: mapInsert rest k v

/-- Go `daycareRegistrationInterval = 10 * time.Second`, in nanoseconds. -/
def daycareRegistrationInterval : Int := 10000000000

/-- Embedding of `daycares.Expire`: drop every entry whose registration time
is more than twice the registration interval before `now`. -/
def Expire (now : Int) (m : Registry) : Registry :=
  m.filter (fun p => !(decide (now - p.2.Time > 2 * daycareRegistrationInterval)))

/-- Embedding of `daycares.Insert`: verify the registration's own signature,
the version, and the absolute time drift; on success sort its problem types,
reset its time to now, clear version and signature, and store it under its
hostname.  Returns the error (Go's `error` result) paired with the registry
state after the call. -/
def Insert (now : Int) (secret currentVersion : String) (reg : DaycareRegistration)
    (m : Registry) : Option String × Registry :=
  let sr := ComputeSignature secret reg
  let sig := sr.1
  let reg1 := sr.2
  if sig ≠ reg1.Signature then
    (some ("signature mismatch: computed " ++ sig ++ " but found " ++ reg1.Signature), m)
  else if reg1.Version ≠ currentVersion then
    (some ("version mismatch: daycare is " ++ reg1.Version ++ ", but ta is " ++ currentVersion), m)
  else
    let drift := now - reg1.Time
    let drift := if drift < 0 then -drift else drift
    if drift > nsPerMinute then
      (some "time drift is too great", m)
    else
      let reg2 := { reg1 with
        ProblemTypes := sortStrings reg1.ProblemTypes
        Time := now
        Version := ""
        Signature := "" }
      (none, mapInsert m reg2.Hostname reg2)

/-- Go `sort.Search(n, f)`: binary search for the least index at which `f`
holds, fuel-driven (the fuel is always at least the interval width, which
more than covers the logarithmic depth). -/
def searchLoop (f : Nat → Bool) : Nat → Nat → Nat → Nat
  | 0, i, _ => i
  | fuel + 1, i, j =>
      if i < j then
        let m := (i + j) / 2
        if f m then searchLoop f fuel i m else searchLoop f fuel (m + 1) j
      else i

/-- Go `sort.SearchStrings(a, x)`: least index whose element is `≥ x`. -/
def searchStrings (a : List String) (x : String) : Nat :=
  searchLoop (fun i => strLe x (a.getD i "")) a.length 0 a.length

/-- The eligibility test `daycares.Assign` applies to one registration:
binary-search the (sorted) problem-type list and check for a hit. -/
def servesB (problemType : String) (r : DaycareRegistration) : Bool :=
  let n := searchStrings r.ProblemTypes problemType
  decide (n < r.ProblemTypes.length) && (r.ProblemTypes.getD n "" == problemType)

/-- The total capacity of registrations that pass the eligibility test, as
accumulated by the first loop of `daycares.Assign`. -/
def totalWeight (problemType : String) (m : Registry) : Int :=
  m.foldl (fun acc p => if servesB problemType p.2 then acc + p.2.Capacity else acc) 0

/-- The second loop of `daycares.Assign`: walk the registry accumulating
eligible capacity and return the first host whose cumulative weight exceeds
the random point. -/
def assignLoop (problemType : String) (point : Int) (skipped : Int) :
    Registry → Option String
  | [] => none
  | (host, r) :: rest =>
      let skipped1 := if servesB problemType r then skipped + r.Capacity else skipped
      if point < skipped1 then some host
      else assignLoop problemType point skipped1 rest

/-- Embedding of `daycares.Assign`.  The uniform random point that Go draws
with `rand.Intn(totalWeight)` is passed explicitly. -/
def Assign (point : Int) (problemType : String) (m : Registry) :
    Except String String :=
  if totalWeight problemType m = 0 then .error "no eligible daycare found"
  else
    match assignLoop problemType point 0 m with
    | some host => .ok host
    | none => .error "failed to find daycare, please report this error"

/-! ## The grind tool: the tail of `CommandGrade`

After the graded commit bundle is saved, `CommandGrade` either advances the
student to the next step (mutating the working directory and the dotfile) or
replays the transcript.  The embedding models the working directory as an
association list `path ↦ contents`, the dotfile's per-problem info as a step
number plus whitelist, and the server's steps as a partial map from step
number to `ProblemStep`.  `log.Fatalf` exits become `none`.  The commit's
score is a rational; the Go code compares the float `commit.Score` to the
exact constant `1.0`. -/

/-- One transcript event, as replayed by the `grade` command's switch. -/
inductive EventMessage where
  | exec (command : List String)
  | stdin (streamData : String)
  | stdout (streamData : String)
  | stderr (streamData : String)
  | exit (exitStatus : String)
  | error (errorMessage : String)
  | stdinClosed
  | shutdown
deriving DecidableEq

/-- Terminal colors used when replaying a transcript. -/
inductive TermColor where
  | cyan
  | yellow
  | white
  | red
deriving DecidableEq

/-- The replay switch of `CommandGrade`: what one transcript event prints.
Events with no case in the switch print nothing. -/
def renderEvent : EventMessage → Option (TermColor × String)
  | .exec cmd => some (.cyan, "$ " ++ String.intercalate " " cmd ++ "\n")
  | .stdin d => some (.yellow, d)
  | .stdout d => some (.white, d)
  | .stderr d => some (.red, d)
  | .exit st => some (.cyan, st ++ "\n")
  | .error e => some (.red, "Error: " ++ e ++ "\n")
  | .stdinClosed => none
  | .shutdown => none

structure ReportCard where
  Passed : Bool
  Note : String
deriving DecidableEq

structure Commit where
  Step : Int
  Score : Rat
  ReportCard : Option ReportCard
  Transcript : List EventMessage
deriving DecidableEq

structure ProblemStep where
  Step : Int
  Files : List (String × String)
deriving DecidableEq

/-- The student's on-disk state touched by `CommandGrade`: the working
directory's files, the dotfile's step number for this problem, and its
whitelist. -/
structure GradeFS where
  files : List (String × String)
  dotStep : Int
  whitelist : List String
deriving DecidableEq

/-- Go `len(strings.Split(name, "/")) == 1`: the name names a file in the
root of the working directory, that is, contains no slash. -/
def isRootName (name : String) : Bool := !(name.data.contains '/')

def filesLookup (fs : List (String × String)) (k : String) : Option String :=
  match fs with
  | [] => none
  | (h, c) :: rest => if h = k then some c else filesLookup rest k

def filesRemove (fs : List (String × String)) (k : String) : List (String × String) :=
  fs.filter (fun p => !(p.1 == k))

def filesWrite (fs : List (String × String)) (k v : String) : List (String × String) :=
  match fs with
  | [] => [(k, v)]
  | (h, c) :: rest => if h = k then (k, v) :: rest else (h, c) :: filesWrite rest k v

/-- Delete the old step's subdirectory files (root files are skipped by the
`continue`); `os.Remove` of a missing file is a fatal error, hence `none`. -/
def deleteOldFiles (old : List (String × String)) (fs : List (String × String)) :
    Option (List (String × String)) :=
  match old with
  | [] => some fs
  | (name, _) :: rest =>
      if isRootName name then deleteOldFiles rest fs
      else match filesLookup fs name with
        | none => none
        | some _ => deleteOldFiles rest (filesRemove fs name)

/-- Write the new step's files into the working directory, whitelisting the
root-level ones. -/
def writeNewFiles (new : List (String × String)) (st : GradeFS) : GradeFS :=
  match new with
  | [] => st
  | (name, contents) :: rest =>
      let st1 := { st with files := filesWrite st.files name contents }
      let st2 := if isRootName name then
          { st1 with whitelist :=
              if name ∈ st1.whitelist then st1.whitelist else st1.whitelist ++ [name] }
        else st1
      writeNewFiles rest st2

/-- The branch condition `commit.ReportCard != nil && commit.ReportCard.Passed
&& commit.Score == 1.0`. -/
def gradePassed (c : Commit) : Bool :=
  (match c.ReportCard with
   | some rc => rc.Passed
   | none => false) && (c.Score == 1)

/-- What `CommandGrade` did after saving the graded commit. -/
inductive GradeAction where
  | advanced
  | completedAll
  | replayed (lines : List (TermColor × String))
deriving DecidableEq

/-- Embedding of the tail of `CommandGrade` (after the graded bundle is
saved): on a passed commit with a next step, delete the old step's
subdirectory files, write the new step's files, and bump the dotfile step;
on a passed commit with no next step, report completion and change nothing;
otherwise change nothing and replay the transcript.  `none` models
`log.Fatalf`. -/
def commandGradePost (steps : Int → Option ProblemStep) (c : Commit) (st : GradeFS) :
    Option (GradeFS × GradeAction) :=
  if gradePassed c then
    match steps (c.Step + 1) with
    | none => some (st, .completedAll)
    | some newStep =>
        match steps c.Step with
        | none => none
        | some oldStep =>
            match deleteOldFiles oldStep.Files st.files with
            | none => none
            | some files1 =>
                let st1 := writeNewFiles newStep.Files { st with files := files1 }
                some ({ st1 with dotStep := st1.dotStep + 1 }, .advanced)
  else
    some (st, .replayed (c.Transcript.filterMap renderEvent))

/-- The absolute time drift computed by `Insert`. -/
def driftAbs (now t : Int) : Int := if now - t < 0 then -(now - t) else now - t

/-- The registration value `Insert` stores on success. -/
def cleanedReg (now : Int) (reg : DaycareRegistration) : DaycareRegistration :=
  { Hostname := reg.Hostname, ProblemTypes := sortStrings reg.ProblemTypes,
    Capacity := reg.Capacity, Time := now, Version := "", Signature := "" }

/-- The weight one registration contributes to the assignment pool. -/
def weightOf (pt : String) (r : DaycareRegistration) : Int :=
  if servesB pt r then r.Capacity else 0

/-- Specification-side total weight: the sum of capacities over registered
hosts whose problem-type list contains the requested type. -/
def eligibleWeight (pt : String) (m : Registry) : Int :=
  ((m.filter (fun p => decide (pt ∈ p.2.ProblemTypes))).map (fun p => p.2.Capacity)).sum

/-- The number of random points in `[0, totalWeight)` for which `Assign`
returns the given host. -/
def countAssigned (pt : String) (m : Registry) (host : String) : Nat :=
  (List.range (totalWeight pt m).toNat).countP
    (fun p : Nat =>
      match Assign ((p : Int)) pt m with
      | .ok h => h == host
      | .error _ => false)

/-! ## Concrete fixtures for witnesses and counterexamples -/

/-- A registration as a worker would build it, before signing. -/
def fixtureReg0 : DaycareRegistration :=
  { Hostname := "worker1", ProblemTypes := ["python3unittest", "gounittest"],
    Capacity := 3, Time := 1760198399 * nsPerSecond + 400000000,
    Version := "1.9.6", Signature := "" }

/-- The matching self-signature of `fixtureReg0` under secret `"secret"`. -/
def fixtureSig : String := (ComputeSignature "secret" fixtureReg0).1

/-- A correctly signed registration. -/
def fixtureReg : DaycareRegistration := { fixtureReg0 with Signature := fixtureSig }

/-- A live registered worker with capacity 3. -/
def regA : DaycareRegistration :=
  { Hostname := "hostA", ProblemTypes := ["gounittest"], Capacity := 3, Time := 0,
    Version := "", Signature := "" }

/-- A live registered worker with capacity 1. -/
def regB : DaycareRegistration :=
  { Hostname := "hostB", ProblemTypes := ["gounittest"], Capacity := 1, Time := 0,
    Version := "", Signature := "" }

/-- A two-worker registry with skewed weights (the seed scenario). -/
def fixtureRegistry : Registry := [("hostA", regA), ("hostB", regB)]

/-- A worker whose registration has gone stale. -/
def regStale : DaycareRegistration :=
  { Hostname := "old", ProblemTypes := ["gounittest"], Capacity := 5, Time := 0,
    Version := "", Signature := "" }

def staleRegistry : Registry := [("old", regStale)]

/-- A registration with zero capacity, before signing. -/
def zeroCapReg0 : DaycareRegistration :=
  { Hostname := "zerohost", ProblemTypes := ["python3unittest"], Capacity := 0,
    Time := 1760198399 * nsPerSecond, Version := "1.9.6", Signature := "" }

def zeroCapSig : String := (ComputeSignature "secret" zeroCapReg0).1

/-- A correctly signed registration with zero capacity. -/
def zeroCapReg : DaycareRegistration := { zeroCapReg0 with Signature := zeroCapSig }

/-- A commit with a passed report card and full score. -/
def passedCommit : Commit :=
  { Step := 1, Score := 1, ReportCard := some { Passed := true, Note := "" },
    Transcript := [] }

/-- A commit whose grading failed. -/
def failedCommit : Commit :=
  { Step := 1, Score := 0, ReportCard := some { Passed := false, Note := "tests failed" },
    Transcript := [.exec ["python3", "tests.py"], .stdout "F\n", .exit "exit status 1"] }

/-- A problem with no steps beyond the current one. -/
def noSteps : Int → Option ProblemStep := fun _ => none

def gradeFS0 : GradeFS :=
  { files := [("main.py", "print(1)\n")], dotStep := 1, whitelist := ["main.py"] }

theorem charsLt_irrefl (l : List Char) : charsLt l l = false := by
  induction l with
  | nil => rfl
  | cons a as ih => simp [charsLt, ih]

theorem charsLt_trans : ∀ {a b c : List Char},
    charsLt a b = true → charsLt b c = true → charsLt a c = true
  | [], [], _ :: _, h, _ => by cases h
  | [], _ :: _, _ :: _, _, _ => rfl
  | a :: as, b :: bs, c :: cs, hab, hbc => by
      simp only [charsLt, Bool.or_eq_true, Bool.and_eq_true, decide_eq_true_eq,
        beq_iff_eq] at hab hbc ⊢
      rcases hab with hab | ⟨rfl, hab⟩
      · rcases hbc with hbc | ⟨rfl, hbc⟩
        · exact Or.inl (lt_trans hab hbc)
        · exact Or.inl hab
      · rcases hbc with hbc | ⟨rfl, hbc⟩
        · exact Or.inl hbc
        · exact Or.inr ⟨rfl, charsLt_trans hab hbc⟩

theorem charsLt_total : ∀ a b : List Char,
    charsLt a b = true ∨ a = b ∨ charsLt b a = true
  | [], [] => Or.inr (Or.inl rfl)
  | [], _ :: _ => Or.inl rfl
  | _ :: _, [] => Or.inr (Or.inr rfl)
  | a :: as, b :: bs => by
      rcases lt_trichotomy a b with h | h | h
      · exact Or.inl (by simp [charsLt, h])
      · subst h
        rcases charsLt_total as bs with h | h | h
        · exact Or.inl (by simp [charsLt, h])
        · exact Or.inr (Or.inl (by rw [h]))
        · exact Or.inr (Or.inr (by simp [charsLt, h]))
      · exact Or.inr (Or.inr (by simp [charsLt, h]))

theorem strLe_total (a b : String) : strLe a b = true ∨ strLe b a = true := by
  by_contra h
  push_neg at h
  obtain ⟨h1, h2⟩ := h
  simp only [strLe, strLt, Bool.not_eq_true, Bool.not_eq_false'] at h1 h2
  have h3 := charsLt_trans h1 h2
  rw [charsLt_irrefl] at h3
  cases h3

theorem strLe_trans {a b c : String} (hab : strLe a b = true)
    (hbc : strLe b c = true) : strLe a c = true := by
  simp only [strLe, strLt, Bool.not_eq_true'] at hab hbc ⊢
  by_contra h
  rw [Bool.not_eq_false] at h
  rcases charsLt_total a.data b.data with hx | hx | hx
  · have h4 := charsLt_trans h hx
    rw [hbc] at h4; cases h4
  · rw [hx] at h; rw [h] at hbc; cases hbc
  · rw [hx] at hab; cases hab

theorem strLe_antisymm {a b : String} (hab : strLe a b = true)
    (hba : strLe b a = true) : a = b := by
  simp only [strLe, strLt, Bool.not_eq_true'] at hab hba
  rcases charsLt_total a.data b.data with hx | hx | hx
  · rw [hx] at hba; cases hba
  · cases a with
    | mk da =>
      cases b with
      | mk db => exact congrArg String.mk hx
  · rw [hx] at hab; cases hab

instance : IsTotal String strRel := ⟨strLe_total⟩

instance : IsTrans String strRel := ⟨fun _ _ _ => strLe_trans⟩

instance : IsAntisymm String strRel := ⟨fun _ _ => strLe_antisymm⟩

instance : IsRefl String strRel :=
  ⟨fun a => by
    rcases strLe_total a a with h | h
    · exact h
    · exact h⟩

theorem sortStrings_sorted (l : List String) :
    List.Sorted strRel (sortStrings l) :=
  List.sorted_insertionSort strRel l

theorem sortStrings_perm (l : List String) : (sortStrings l).Perm l :=
  List.perm_insertionSort strRel l

theorem sortStrings_eq_of_perm {l₁ l₂ : List String} (h : l₁.Perm l₂) :
    sortStrings l₁ = sortStrings l₂ :=
  List.eq_of_perm_of_sorted ((sortStrings_perm l₁).trans (h.trans (sortStrings_perm l₂).symm))
    (sortStrings_sorted l₁) (sortStrings_sorted l₂)

theorem sortStrings_idem (l : List String) :
    sortStrings (sortStrings l) = sortStrings l :=
  List.Sorted.insertionSort_eq (sortStrings_sorted l)

theorem strLe_refl (x : String) : strLe x x = true := by
  rcases strLe_total x x with h | h
  · exact h
  · exact h

/-! ## Helper lemmas: registry map operations -/

theorem Insert_eq (now : Int) (secret ver : String) (reg : DaycareRegistration)
    (m : Registry) :
    Insert now secret ver reg m =
      if (ComputeSignature secret reg).1 ≠ reg.Signature then
        (some ("signature mismatch: computed " ++ (ComputeSignature secret reg).1 ++
          " but found " ++ reg.Signature), m)
      else if reg.Version ≠ ver then
        (some ("version mismatch: daycare is " ++ reg.Version ++ ", but ta is " ++ ver), m)
      else if driftAbs now reg.Time > nsPerMinute then
        (some "time drift is too great", m)
      else
        (none, mapInsert m reg.Hostname (cleanedReg now reg)) := by
  simp only [Insert, ComputeSignature, driftAbs, cleanedReg, sortStrings_idem]

theorem regLookup_mapInsert_self (m : Registry) (k : String) (v : DaycareRegistration) :
    regLookup (mapInsert m k v) k = some v := by
  induction m with
  | nil => simp [mapInsert, regLookup]
  | cons p rest ih =>
      obtain ⟨h, r⟩ := p
      by_cases hk : h = k
      · simp [mapInsert, hk, regLookup]
      · simp [mapInsert, hk, regLookup, ih]

theorem regLookup_mapInsert_other (m : Registry) (k k2 : String)
    (v : DaycareRegistration) (hne : k2 ≠ k) :
    regLookup (mapInsert m k v) k2 = regLookup m k2 := by
  induction m with
  | nil =>
      simp only [mapInsert, regLookup]
      rw [if_neg (Ne.symm hne)]
  | cons p rest ih =>
      obtain ⟨h, r⟩ := p
      by_cases hk : h = k
      · subst hk
        simp only [mapInsert, if_pos rfl, regLookup]
        rw [if_neg (Ne.symm hne), if_neg (Ne.symm hne)]
      · simp [mapInsert, hk, regLookup, ih]

theorem mem_mapInsert (m : Registry) (k : String) (v : DaycareRegistration)
    (p : String × DaycareRegistration) (hp : p ∈ mapInsert m k v) :
    p = (k, v) ∨ p ∈ m := by
  induction m with
  | nil => simpa [mapInsert] using hp
  | cons q rest ih =>
      obtain ⟨h, r⟩ := q
      by_cases hk : h = k
      · simp only [mapInsert, if_pos hk, List.mem_cons] at hp
        rcases hp with hp | hp
        · exact Or.inl hp
        · exact Or.inr (List.mem_cons_of_mem _ hp)
      · simp only [mapInsert, if_neg hk, List.mem_cons] at hp
        rcases hp with hp | hp
        · exact Or.inr (by simp [hp])
        · rcases ih hp with hp2 | hp2
          · exact Or.inl hp2
          · exact Or.inr (List.mem_cons_of_mem _ hp2)

theorem Insert_fst_eq_none (now : Int) (secret ver : String)
    (reg : DaycareRegistration) (m : Registry)
    (hsig : (ComputeSignature secret reg).1 = reg.Signature)
    (hver : reg.Version = ver)
    (hdr : driftAbs now reg.Time ≤ nsPerMinute) :
    Insert now secret ver reg m = (none, mapInsert m reg.Hostname (cleanedReg now reg)) := by
  rw [Insert_eq]
  rw [if_neg (by simpa using hsig), if_neg (by simpa using hver), if_neg (by omega)]

/-- Shared congruence helper: the signature depends only on the hostname, the
multiset of problem types, the capacity, the rounded time and the version. -/
theorem ComputeSignature_fst_congr (secret : String) {r1 r2 : DaycareRegistration}
    (hh : r1.Hostname = r2.Hostname) (hp : r1.ProblemTypes.Perm r2.ProblemTypes)
    (hc : r1.Capacity = r2.Capacity) (ht : roundToSecond r1.Time = roundToSecond r2.Time)
    (hv : r1.Version = r2.Version) :
    (ComputeSignature secret r1).1 = (ComputeSignature secret r2).1 := by
  have hsort : sortStrings r1.ProblemTypes = sortStrings r2.ProblemTypes :=
    sortStrings_eq_of_perm hp
  simp only [ComputeSignature]
  rw [hsort, hh, hc, ht, hv]

/-! ## Helper lemmas: binary search (`sort.Search` / `sort.SearchStrings`) -/

theorem searchLoop_spec (f : Nat → Bool) :
    ∀ fuel i j, i ≤ j → j - i ≤ fuel →
      (i ≤ searchLoop f fuel i j ∧ searchLoop f fuel i j ≤ j) ∧
      (searchLoop f fuel i j = j ∨ f (searchLoop f fuel i j) = true) ∧
      (searchLoop f fuel i j = i ∨ f (searchLoop f fuel i j - 1) = false) := by
  intro fuel
  induction fuel with
  | zero =>
      intro i j hij hf
      have hij2 : i = j := by omega
      subst hij2
      simp [searchLoop]
  | succ fuel ih =>
      intro i j hij hf
      by_cases hlt : i < j
      · simp only [searchLoop, if_pos hlt]
        by_cases hfm : f ((i + j) / 2) = true
        · simp only [if_pos hfm]
          have h := ih i ((i + j) / 2) (by omega) (by omega)
          refine ⟨⟨h.1.1, by omega⟩, ?_, h.2.2⟩
          rcases h.2.1 with h2 | h2
          · exact Or.inr (by rw [h2]; exact hfm)
          · exact Or.inr h2
        · simp only [if_neg hfm]
          have h := ih ((i + j) / 2 + 1) j (by omega) (by omega)
          refine ⟨⟨by omega, h.1.2⟩, h.2.1, ?_⟩
          rcases h.2.2 with h2 | h2
          · refine Or.inr ?_
            rw [h2]
            simpa using hfm
          · exact Or.inr h2
      · have hij2 : i = j := by omega
        subst hij2
        simp [searchLoop, hlt]

/-- Go `sort.SearchStrings` on a sorted list finds `x` exactly when `x` is a
member: the result is in range with the element equal to `x` iff `x ∈ a`. -/
theorem searchStrings_found_iff (a : List String) (hs : List.Sorted strRel a)
    (x : String) :
    (searchStrings a x < a.length ∧ a.getD (searchStrings a x) "" = x) ↔ x ∈ a := by
  have hss : searchLoop (fun i => strLe x (a.getD i "")) a.length 0 a.length =
      searchStrings a x := rfl
  obtain ⟨⟨_, hle⟩, hinv1, hinv2⟩ :=
    searchLoop_spec (fun i => strLe x (a.getD i "")) a.length 0 a.length
      (by omega) (by omega)
  rw [hss] at hle hinv1 hinv2
  set res := searchStrings a x with hres
  constructor
  · rintro ⟨h1, h2⟩
    rw [List.getD_eq_getElem a "" h1] at h2
    exact h2 ▸ List.getElem_mem h1
  · intro hx
    obtain ⟨k, hk, hak⟩ := List.mem_iff_getElem.mp hx
    have hfk : strLe x (a.getD k "") = true := by
      rw [List.getD_eq_getElem a "" hk, hak]
      exact strLe_refl x
    have hreslek : res ≤ k := by
      by_contra hc
      push_neg at hc
      rcases hinv2 with h0 | h0
      · omega
      · have hr1 : res - 1 < a.length := by omega
        have hmono : strRel (a.get ⟨k, hk⟩) (a.get ⟨res - 1, hr1⟩) :=
          List.Sorted.rel_get_of_le hs (by simp only [Fin.mk_le_mk]; omega)
        have hchain : strLe x (a.getD (res - 1) "") = true := by
          rw [List.getD_eq_getElem a "" hr1]
          refine strLe_trans ?_ hmono
          rw [List.getD_eq_getElem a "" hk] at hfk
          exact hfk
        rw [h0] at hchain
        cases hchain
    have hreslen : res < a.length := by omega
    refine ⟨hreslen, ?_⟩
    have hfres : strLe x (a.getD res "") = true := by
      rcases hinv1 with h0 | h0
      · omega
      · exact h0
    have hle2 : strRel (a.get ⟨res, hreslen⟩) (a.get ⟨k, hk⟩) :=
      List.Sorted.rel_get_of_le hs (by simp only [Fin.mk_le_mk]; omega)
    have hax : strLe (a.get ⟨res, hreslen⟩) x = true := by
      rw [← hak]
      exact hle2
    rw [List.getD_eq_getElem a "" hreslen] at hfres ⊢
    exact strLe_antisymm hax hfres

/-- The eligibility test of `Assign` on a sorted problem-type list is exactly
membership of the requested problem type. -/
theorem servesB_iff_mem {r : DaycareRegistration}
    (hs : List.Sorted strRel r.ProblemTypes) (pt : String) :
    servesB pt r = true ↔ pt ∈ r.ProblemTypes := by
  unfold servesB
  simp only [Bool.and_eq_true, decide_eq_true_eq, beq_iff_eq]
  exact searchStrings_found_iff r.ProblemTypes hs pt

/-! ## Helper lemmas: Assign -/

theorem foldl_weight_acc (pt : String) : ∀ (l : Registry) (acc : Int),
    l.foldl (fun a p => if servesB pt p.2 then a + p.2.Capacity else a) acc =
      acc + l.foldl (fun a p => if servesB pt p.2 then a + p.2.Capacity else a) 0
  | [], acc => by simp
  | p :: rest, acc => by
      simp only [List.foldl_cons]
      rw [foldl_weight_acc pt rest (if servesB pt p.2 then acc + p.2.Capacity else acc),
          foldl_weight_acc pt rest (if servesB pt p.2 then 0 + p.2.Capacity else 0)]
      by_cases h : servesB pt p.2 = true
      · simp only [if_pos h]
        ring
      · simp only [if_neg h]
        ring

theorem totalWeight_cons (pt : String) (p : String × DaycareRegistration)
    (rest : Registry) :
    totalWeight pt (p :: rest) = weightOf pt p.2 + totalWeight pt rest := by
  simp only [totalWeight, List.foldl_cons, weightOf]
  rw [foldl_weight_acc]
  by_cases h : servesB pt p.2 = true
  · simp only [if_pos h]
    ring
  · simp only [if_neg h]

theorem weightOf_nonneg (pt : String) (r : DaycareRegistration)
    (hc : 0 < r.Capacity) : 0 ≤ weightOf pt r := by
  unfold weightOf
  split_ifs
  · omega
  · omega

theorem totalWeight_nonneg (pt : String) (l : Registry)
    (hpos : ∀ p ∈ l, 0 < p.2.Capacity) : 0 ≤ totalWeight pt l := by
  induction l with
  | nil => simp [totalWeight]
  | cons p rest ih =>
      rw [totalWeight_cons]
      have h1 : 0 ≤ weightOf pt p.2 := weightOf_nonneg pt p.2 (hpos p (by simp))
      have h2 := ih (fun q hq => hpos q (List.mem_cons_of_mem _ hq))
      omega

theorem totalWeight_pos (pt : String) (l : Registry)
    (hpos : ∀ p ∈ l, 0 < p.2.Capacity) {h : String} {r : DaycareRegistration}
    (hmem : (h, r) ∈ l) (hserves : servesB pt r = true) : 0 < totalWeight pt l := by
  induction l with
  | nil => cases hmem
  | cons p rest ih =>
      rw [totalWeight_cons]
      have hrest : ∀ q ∈ rest, 0 < q.2.Capacity :=
        fun q hq => hpos q (List.mem_cons_of_mem _ hq)
      rcases List.mem_cons.mp hmem with heq | hmem2
      · have hw : weightOf pt p.2 = r.Capacity := by
          rw [← heq]
          unfold weightOf
          rw [if_pos hserves]
        have h1 : 0 < r.Capacity := by
          have := hpos p (by simp)
          rw [← heq] at this
          exact this
        have h2 := totalWeight_nonneg pt rest hrest
        omega
      · have h1 := ih hrest hmem2
        have h2 : 0 ≤ weightOf pt p.2 := weightOf_nonneg pt p.2 (hpos p (by simp))
        omega

theorem assignLoop_cons_serves (pt : String) (h : String) (r : DaycareRegistration)
    (rest : Registry) (point s : Int) (hs : servesB pt r = true) :
    assignLoop pt point s ((h, r) :: rest) =
      if point < s + r.Capacity then some h
      else assignLoop pt point (s + r.Capacity) rest := by
  show (if point < (if servesB pt r then s + r.Capacity else s) then some h
        else assignLoop pt point (if servesB pt r then s + r.Capacity else s) rest) = _
  rw [if_pos hs]

theorem assignLoop_cons_skips (pt : String) (h : String) (r : DaycareRegistration)
    (rest : Registry) (point s : Int) (hs : ¬(servesB pt r = true)) :
    assignLoop pt point s ((h, r) :: rest) =
      if point < s then some h else assignLoop pt point s rest := by
  show (if point < (if servesB pt r then s + r.Capacity else s) then some h
        else assignLoop pt point (if servesB pt r then s + r.Capacity else s) rest) = _
  rw [if_neg hs]

theorem assignLoop_skip_zero (pt : String) : ∀ (l : Registry) (point s : Int),
    assignLoop pt point s l = assignLoop pt (point - s) 0 l
  | [], _, _ => rfl
  | (h, r) :: rest, point, s => by
      by_cases hs : servesB pt r = true
      · rw [assignLoop_cons_serves pt h r rest point s hs,
            assignLoop_cons_serves pt h r rest (point - s) 0 hs]
        by_cases hp : point < s + r.Capacity
        · rw [if_pos hp, if_pos (show point - s < 0 + r.Capacity by omega)]
        · rw [if_neg hp, if_neg (show ¬(point - s < 0 + r.Capacity) by omega)]
          rw [assignLoop_skip_zero pt rest point (s + r.Capacity),
              assignLoop_skip_zero pt rest (point - s) (0 + r.Capacity)]
          have harith : point - (s + r.Capacity) = point - s - (0 + r.Capacity) := by ring
          rw [harith]
      · rw [assignLoop_cons_skips pt h r rest point s hs,
            assignLoop_cons_skips pt h r rest (point - s) 0 hs]
        by_cases hp : point < s
        · rw [if_pos hp, if_pos (show point - s < 0 by omega)]
        · rw [if_neg hp, if_neg (show ¬(point - s < 0) by omega)]
          exact assignLoop_skip_zero pt rest point s

/-- Unfolding the walk over the head entry, for a nonnegative point. -/
theorem assignLoop_cons (pt : String) (h : String) (r : DaycareRegistration)
    (rest : Registry) (point : Int) (hp : 0 ≤ point) :
    assignLoop pt point 0 ((h, r) :: rest) =
      if servesB pt r = true ∧ point < r.Capacity then some h
      else assignLoop pt (point - weightOf pt r) 0 rest := by
  by_cases hs : servesB pt r = true
  · rw [assignLoop_cons_serves pt h r rest point 0 hs]
    by_cases hpc : point < r.Capacity
    · rw [if_pos (show point < 0 + r.Capacity by omega), if_pos ⟨hs, hpc⟩]
    · rw [if_neg (show ¬(point < 0 + r.Capacity) by omega),
          if_neg (show ¬(servesB pt r = true ∧ point < r.Capacity) from fun hc => hpc hc.2)]
      rw [assignLoop_skip_zero pt rest point (0 + r.Capacity)]
      unfold weightOf
      rw [if_pos hs]
      have harith : point - (0 + r.Capacity) = point - r.Capacity := by ring
      rw [harith]
  · rw [assignLoop_cons_skips pt h r rest point 0 hs]
    rw [if_neg (show ¬(point < 0) by omega),
        if_neg (show ¬(servesB pt r = true ∧ point < r.Capacity) from fun hc => hs hc.1)]
    unfold weightOf
    rw [if_neg hs]
    have harith : point - 0 = point := by ring
    rw [harith]

theorem assignLoop_mem_serves (pt : String) : ∀ (l : Registry) (point s : Int)
    (host : String), s ≤ point → assignLoop pt point s l = some host →
    ∃ r, (host, r) ∈ l ∧ servesB pt r = true
  | [], _, _, _, _, heq => by cases heq
  | (h0, r0) :: rest, point, s, host, hsp, heq => by
      by_cases hs : servesB pt r0 = true
      · rw [assignLoop_cons_serves pt h0 r0 rest point s hs] at heq
        by_cases hp : point < s + r0.Capacity
        · rw [if_pos hp] at heq
          refine ⟨r0, ?_, hs⟩
          simp only [Option.some.injEq] at heq
          simp [heq]
        · rw [if_neg hp] at heq
          obtain ⟨r, hmem, hserv⟩ :=
            assignLoop_mem_serves pt rest point (s + r0.Capacity) host (by omega) heq
          exact ⟨r, List.mem_cons_of_mem _ hmem, hserv⟩
      · rw [assignLoop_cons_skips pt h0 r0 rest point s hs,
            if_neg (show ¬(point < s) by omega)] at heq
        obtain ⟨r, hmem, hserv⟩ := assignLoop_mem_serves pt rest point s host hsp heq
        exact ⟨r, List.mem_cons_of_mem _ hmem, hserv⟩

theorem assignLoop_isSome (pt : String) : ∀ (l : Registry) (point s : Int),
    s ≤ point → point < s + totalWeight pt l → (assignLoop pt point s l).isSome = true
  | [], point, s, h1, h2 => by
      simp only [totalWeight, List.foldl_nil] at h2
      omega
  | (h0, r0) :: rest, point, s, h1, h2 => by
      rw [totalWeight_cons] at h2
      by_cases hs : servesB pt r0 = true
      · rw [assignLoop_cons_serves pt h0 r0 rest point s hs]
        by_cases hp : point < s + r0.Capacity
        · rw [if_pos hp]
          rfl
        · rw [if_neg hp]
          apply assignLoop_isSome pt rest point (s + r0.Capacity) (by omega)
          simp only [weightOf, if_pos hs] at h2
          omega
      · rw [assignLoop_cons_skips pt h0 r0 rest point s hs,
            if_neg (show ¬(point < s) by omega)]
        apply assignLoop_isSome pt rest point s h1
        simp only [weightOf, if_neg hs] at h2
        omega

theorem regLookup_eq_none (l : Registry) (k : String) (hk : k ∉ l.map Prod.fst) :
    regLookup l k = none := by
  induction l with
  | nil => rfl
  | cons p rest ih =>
      obtain ⟨h, r⟩ := p
      simp only [List.map_cons, List.mem_cons, not_or] at hk
      have hne : ¬(h = k) := fun he => hk.1 he.symm
      simp [regLookup, hne, ih hk.2]

theorem totalWeight_eq_eligibleWeight (pt : String) (m : Registry)
    (hsorted : ∀ p ∈ m, List.Sorted strRel p.2.ProblemTypes) :
    totalWeight pt m = eligibleWeight pt m := by
  induction m with
  | nil => rfl
  | cons p rest ih =>
      rw [totalWeight_cons]
      have hrest := ih (fun q hq => hsorted q (List.mem_cons_of_mem _ hq))
      have hiff := servesB_iff_mem (hsorted p (by simp)) pt
      unfold eligibleWeight at hrest ⊢
      by_cases h : servesB pt p.2 = true
      · rw [List.filter_cons_of_pos (by simpa using hiff.mp h)]
        simp only [List.map_cons, List.sum_cons]
        rw [← hrest]
        unfold weightOf
        rw [if_pos h]
      · rw [List.filter_cons_of_neg (by simpa using fun hm => h (hiff.mpr hm))]
        rw [← hrest]
        unfold weightOf
        rw [if_neg h]
        omega

theorem totalWeight_eq_zero_of_none (pt : String) (m : Registry)
    (hnone : ∀ p ∈ m, ¬(servesB pt p.2 = true)) : totalWeight pt m = 0 := by
  induction m with
  | nil => rfl
  | cons p rest ih =>
      rw [totalWeight_cons]
      have h1 := ih (fun q hq => hnone q (List.mem_cons_of_mem _ hq))
      have h2 : weightOf pt p.2 = 0 := by
        unfold weightOf
        rw [if_neg (hnone p (by simp))]
      omega

theorem regLookup_of_mem (l : Registry) (hnd : (l.map Prod.fst).Nodup)
    {h : String} {r : DaycareRegistration} (hmem : (h, r) ∈ l) :
    regLookup l h = some r := by
  induction l with
  | nil => cases hmem
  | cons p rest ih =>
      obtain ⟨h0, r0⟩ := p
      simp only [List.map_cons, List.nodup_cons] at hnd
      rcases List.mem_cons.mp hmem with heq | hmem2
      · rw [Prod.mk.injEq] at heq
        obtain ⟨he1, he2⟩ := heq
        simp [regLookup, he1.symm, he2]
      · have hne : ¬(h0 = h) := by
          intro he
          subst he
          exact hnd.1 (List.mem_map_of_mem Prod.fst hmem2)
        simp [regLookup, hne, ih hnd.2 hmem2]

/-- The central counting argument: out of the `totalWeight` possible random
points, exactly `Capacity` many make the walk return a given eligible host,
and none make it return an ineligible or absent host. -/
theorem countP_walk (pt : String) : ∀ (l : Registry) (host : String),
    (∀ p ∈ l, 0 < p.2.Capacity) → (l.map Prod.fst).Nodup →
    ((List.range (totalWeight pt l).toNat).countP
        (fun p : Nat => assignLoop pt ((p : Int)) 0 l == some host)) =
      (match regLookup l host with
       | some r => if servesB pt r = true then r.Capacity.toNat else 0
       | none => 0) := by
  intro l
  induction l with
  | nil =>
      intro host _ _
      simp [totalWeight, regLookup]
  | cons q rest ih =>
      intro host hpos hnd
      obtain ⟨h0, r0⟩ := q
      have hrest : ∀ p ∈ rest, 0 < p.2.Capacity :=
        fun p hp => hpos p (List.mem_cons_of_mem _ hp)
      simp only [List.map_cons, List.nodup_cons] at hnd
      have hw0 : 0 ≤ weightOf pt r0 := weightOf_nonneg pt r0 (hpos (h0, r0) (by simp))
      have htwr : 0 ≤ totalWeight pt rest := totalWeight_nonneg pt rest hrest
      have htn : (totalWeight pt ((h0, r0) :: rest)).toNat
          = (weightOf pt r0).toNat + (totalWeight pt rest).toNat := by
        rw [totalWeight_cons]
        exact Int.toNat_add hw0 htwr
      rw [htn, List.range_add, List.countP_append, List.countP_map]
      have hfirst : (List.range (weightOf pt r0).toNat).countP
          (fun p : Nat => assignLoop pt ((p : Int)) 0 ((h0, r0) :: rest) == some host) =
          if h0 = host then (weightOf pt r0).toNat else 0 := by
        have hvalue : ∀ a ∈ List.range (weightOf pt r0).toNat,
            assignLoop pt (a : Int) 0 ((h0, r0) :: rest) = some h0 := by
          intro a ha
          rw [List.mem_range] at ha
          have hserv : servesB pt r0 = true := by
            by_contra hns
            rw [show weightOf pt r0 = 0 from by unfold weightOf; rw [if_neg hns]] at ha
            simp at ha
          have hwcap : weightOf pt r0 = r0.Capacity := by
            unfold weightOf
            rw [if_pos hserv]
          have hlt : (a : Int) < r0.Capacity := by
            rw [hwcap] at ha
            omega
          rw [assignLoop_cons pt h0 r0 rest (a : Int) (by omega)]
          rw [if_pos ⟨hserv, hlt⟩]
        by_cases hh : h0 = host
        · rw [if_pos hh]
          conv_rhs => rw [← List.length_range ((weightOf pt r0).toNat)]
          apply List.countP_eq_length.mpr
          intro a ha
          rw [hvalue a ha]
          simp [hh]
        · rw [if_neg hh]
          apply List.countP_eq_zero.mpr
          intro a ha
          rw [hvalue a ha]
          simp [hh]
      have hsecond : (List.range (totalWeight pt rest).toNat).countP
          ((fun p : Nat => assignLoop pt ((p : Int)) 0 ((h0, r0) :: rest) == some host) ∘
            (fun x => (weightOf pt r0).toNat + x)) =
          (List.range (totalWeight pt rest).toNat).countP
            (fun p : Nat => assignLoop pt ((p : Int)) 0 rest == some host) := by
        apply List.countP_congr
        intro a _
        simp only [Function.comp_apply]
        have hcast : (((weightOf pt r0).toNat + a : Nat) : Int) =
            weightOf pt r0 + (a : Int) := by
          push_cast
          rw [Int.toNat_of_nonneg hw0]
        have hwalk : assignLoop pt (((weightOf pt r0).toNat + a : Nat) : Int) 0
            ((h0, r0) :: rest) = assignLoop pt (a : Int) 0 rest := by
          rw [hcast]
          rw [assignLoop_cons pt h0 r0 rest (weightOf pt r0 + (a : Int)) (by omega)]
          rw [if_neg (by
            rintro ⟨hserv, hlt⟩
            have hwcap : weightOf pt r0 = r0.Capacity := by
              unfold weightOf
              rw [if_pos hserv]
            omega)]
          have harith : weightOf pt r0 + (a : Int) - weightOf pt r0 = (a : Int) := by ring
          rw [harith]
        rw [hwalk]
      rw [hfirst, hsecond, ih host hrest hnd.2]
      by_cases hh : h0 = host
      · subst hh
        rw [regLookup_eq_none rest h0 hnd.1]
        by_cases hserv : servesB pt r0 = true
        · simp [regLookup, weightOf, hserv]
        · simp [regLookup, weightOf, hserv]
      · rw [if_neg hh]
        simp [regLookup, hh]

/-- Off the degenerate empty pool, the `Assign`-level point count coincides
with the walk-level count. -/
theorem countAssigned_eq (pt : String) (m : Registry) (host : String)
    (htw : ¬(totalWeight pt m = 0)) :
    countAssigned pt m host =
      (List.range (totalWeight pt m).toNat).countP
        (fun p : Nat => assignLoop pt ((p : Int)) 0 m == some host) := by
  unfold countAssigned
  apply List.countP_congr
  intro a _
  unfold Assign
  rw [if_neg htw]
  cases hw : assignLoop pt (a : Int) 0 m with
  | none => simp
  | some h2 => simp

theorem fixtureReg_sig_valid :
    (ComputeSignature "secret" fixtureReg).1 = fixtureReg.Signature := rfl

/-- The working-directory state is never touched by `writeNewFiles` in its
dotfile step number. -/
theorem writeNewFiles_dotStep : ∀ (new : List (String × String)) (st : GradeFS),
    (writeNewFiles new st).dotStep = st.dotStep
  | [], _ => rfl
  | (name, contents) :: rest, st => by
      unfold writeNewFiles
      rw [writeNewFiles_dotStep rest _]
      by_cases h : isRootName name = true
      · rw [if_pos h]
      · rw [if_neg h]

theorem totalWeight_expire_partition (now : Int) (pt : String) : ∀ (m : Registry),
    totalWeight pt (Expire now m) +
      totalWeight pt (m.filter
        (fun p => decide (now - p.2.Time > 2 * daycareRegistrationInterval))) =
      totalWeight pt m
  | [] => rfl
  | p :: rest => by
      have ih := totalWeight_expire_partition now pt rest
      unfold Expire at ih ⊢
      by_cases hstale : now - p.2.Time > 2 * daycareRegistrationInterval
      · rw [List.filter_cons_of_neg
              (by simp only [Bool.not_eq_true', decide_eq_false_iff_not, not_not]
                  exact hstale),
            List.filter_cons_of_pos (by simp only [decide_eq_true_eq]; exact hstale),
            totalWeight_cons pt p, totalWeight_cons pt p]
        omega
      · rw [List.filter_cons_of_pos
              (by simp only [Bool.not_eq_true', decide_eq_false_iff_not]
                  exact hstale),
            List.filter_cons_of_neg (by simp only [decide_eq_true_eq]; exact hstale),
            totalWeight_cons pt p, totalWeight_cons pt p]
        omega

/-! ## Claim theorems -/

/-- C1: `Insert` rejects a registration exactly when its signature differs
from the recomputed HMAC, or its version differs from the current version,
or the absolute drift between its time and now exceeds 60 seconds; a drift
of exactly 61 seconds is rejected and, with signature and version valid, a
drift of exactly 59 seconds is accepted. -/
theorem insert_rejects_iff (now : Int) (secret currentVersion : String)
    (reg : DaycareRegistration) (m : Registry) :
    ((Insert now secret currentVersion reg m).1 = none ↔
      ((ComputeSignature secret reg).1 = reg.Signature ∧
        reg.Version = currentVersion ∧ driftAbs now reg.Time ≤ nsPerMinute)) ∧
    (driftAbs now reg.Time = 61 * nsPerSecond →
      (Insert now secret currentVersion reg m).1 ≠ none) ∧
    ((ComputeSignature secret reg).1 = reg.Signature → reg.Version = currentVersion →
      driftAbs now reg.Time = 59 * nsPerSecond →
      (Insert now secret currentVersion reg m).1 = none) := by
  refine ⟨?_, ?_, ?_⟩
  · rw [Insert_eq]
    split_ifs with h1 h2 h3
    · simp only [not_not] at *
      simp [h1]
    · simp only [not_not] at *
      simp [h2]
    · simp only [not_not] at *
      constructor
      · intro h; cases h
      · intro h
        omega
    · simp only [not_not] at *
      simp [h1, h2]
      omega
  · intro hd
    rw [Insert_eq]
    split_ifs with h1 h2 h3
    · simp
    · simp
    · simp
    · exfalso
      simp only [nsPerMinute, nsPerSecond] at h3 hd
      omega
  · intro h1 h2 h3
    rw [Insert_fst_eq_none now secret currentVersion reg m h1 h2
      (by simp only [nsPerMinute, nsPerSecond] at *; omega)]

/-- Witness for C1 at a concrete input: a correctly signed registration whose
time drifts by exactly 59 seconds is accepted. -/
theorem insert_rejects_iff_witness :
    (Insert (fixtureReg.Time + 59 * nsPerSecond) "secret" "1.9.6" fixtureReg []).1 = none :=
  (insert_rejects_iff (fixtureReg.Time + 59 * nsPerSecond) "secret" "1.9.6" fixtureReg
    []).2.2 rfl rfl (by decide)

/-- C4: `Expire` removes exactly the entries whose time is more than twice
the registration interval (20 seconds) before now, and leaves every other
entry unchanged, key and value, preserving their order. -/
theorem expire_removes_exactly_stale (now : Int) (m : Registry) :
    (Expire now m).Sublist m ∧
    (∀ h r, (h, r) ∈ Expire now m ↔
      ((h, r) ∈ m ∧ ¬(now - r.Time > 2 * daycareRegistrationInterval))) := by
  refine ⟨List.filter_sublist _, ?_⟩
  intro h r
  simp [Expire, List.mem_filter]

/-- C5: when `Insert` fails the registry is unchanged; when it succeeds the
entry under the registration's hostname holds the cleaned registration
(problem types sorted, time reset to now, version and signature cleared,
hostname and capacity kept) and every other hostname's entry is unchanged. -/
theorem insert_frame (now : Int) (secret ver : String) (reg : DaycareRegistration)
    (m : Registry) :
    (∀ e, (Insert now secret ver reg m).1 = some e →
      (Insert now secret ver reg m).2 = m) ∧
    ((Insert now secret ver reg m).1 = none →
      regLookup (Insert now secret ver reg m).2 reg.Hostname = some (cleanedReg now reg) ∧
      (cleanedReg now reg).ProblemTypes = sortStrings reg.ProblemTypes ∧
      List.Sorted strRel (cleanedReg now reg).ProblemTypes ∧
      (cleanedReg now reg).Time = now ∧
      (cleanedReg now reg).Version = "" ∧
      (cleanedReg now reg).Signature = "" ∧
      (cleanedReg now reg).Hostname = reg.Hostname ∧
      (cleanedReg now reg).Capacity = reg.Capacity ∧
      (∀ k, k ≠ reg.Hostname →
        regLookup (Insert now secret ver reg m).2 k = regLookup m k)) := by
  rw [Insert_eq]
  split_ifs with h1 h2 h3
  · exact ⟨fun e _ => rfl, fun h => by cases h⟩
  · exact ⟨fun e _ => rfl, fun h => by cases h⟩
  · exact ⟨fun e _ => rfl, fun h => by cases h⟩
  · refine ⟨fun e he => (by cases he), fun _ => ?_⟩
    refine ⟨regLookup_mapInsert_self m reg.Hostname (cleanedReg now reg), rfl,
      sortStrings_sorted reg.ProblemTypes, rfl, rfl, rfl, rfl, rfl, ?_⟩
    intro k hk
    exact regLookup_mapInsert_other m reg.Hostname k (cleanedReg now reg) hk

/-- Witness for C5 at a concrete input: a successful insertion, checked at
the inserted hostname. -/
theorem insert_frame_witness :
    regLookup (Insert (fixtureReg.Time + 1) "secret" "1.9.6" fixtureReg []).2
        fixtureReg.Hostname =
      some (cleanedReg (fixtureReg.Time + 1) fixtureReg) :=
  ((insert_frame (fixtureReg.Time + 1) "secret" "1.9.6" fixtureReg []).2
    (by rw [Insert_fst_eq_none (fixtureReg.Time + 1) "secret" "1.9.6" fixtureReg []
          rfl rfl (by decide)])).1

/-- C7: the signature is a deterministic function of the secret, hostname,
multiset of problem types, capacity, the time rounded to the second, and the
version: permuting the problem types or moving the time within the same
rounded second leaves it unchanged, and recomputing it on the (mutated)
receiver of a previous call returns the same string. -/
theorem computeSignature_canonical (secret : String) (r1 r2 : DaycareRegistration)
    (hh : r1.Hostname = r2.Hostname) (hp : r1.ProblemTypes.Perm r2.ProblemTypes)
    (hc : r1.Capacity = r2.Capacity) (ht : roundToSecond r1.Time = roundToSecond r2.Time)
    (hv : r1.Version = r2.Version) :
    (ComputeSignature secret r1).1 = (ComputeSignature secret r2).1 ∧
    (ComputeSignature secret ((ComputeSignature secret r1).2)).1 =
      (ComputeSignature secret r1).1 := by
  refine ⟨ComputeSignature_fst_congr secret hh hp hc ht hv, ?_⟩
  exact ComputeSignature_fst_congr secret rfl (sortStrings_perm r1.ProblemTypes) rfl rfl rfl

/-- Witness for C7 at a concrete input: two registrations differing by a
permutation of problem types and by sub-half-second time offsets sign
identically. -/
theorem computeSignature_canonical_witness :
    (ComputeSignature "secret" fixtureReg0).1 =
      (ComputeSignature "secret"
        { fixtureReg0 with
            ProblemTypes := ["gounittest", "python3unittest"],
            Time := fixtureReg0.Time + 50000000 }).1 :=
  (computeSignature_canonical "secret" fixtureReg0
    { fixtureReg0 with
        ProblemTypes := ["gounittest", "python3unittest"],
        Time := fixtureReg0.Time + 50000000 }
    rfl (by decide) rfl (by decide) rfl).1

/-- C10: `ComputeSignature` sorts the receiver's problem-type list in place
(the updated receiver holds a sorted permutation of the original list) and
changes no other field. -/
theorem computeSignature_receiver_effect (secret : String) (reg : DaycareRegistration) :
    (ComputeSignature secret reg).2.ProblemTypes = sortStrings reg.ProblemTypes ∧
    ((ComputeSignature secret reg).2.ProblemTypes).Perm reg.ProblemTypes ∧
    List.Sorted strRel ((ComputeSignature secret reg).2.ProblemTypes) ∧
    (ComputeSignature secret reg).2.Hostname = reg.Hostname ∧
    (ComputeSignature secret reg).2.Capacity = reg.Capacity ∧
    (ComputeSignature secret reg).2.Time = reg.Time ∧
    (ComputeSignature secret reg).2.Version = reg.Version ∧
    (ComputeSignature secret reg).2.Signature = reg.Signature :=
  ⟨rfl, sortStrings_perm reg.ProblemTypes, sortStrings_sorted reg.ProblemTypes,
    rfl, rfl, rfl, rfl, rfl⟩

/-- C2: on a registry whose entries are sorted, positive-capacity and
uniquely keyed, with a positive total weight for the requested problem type,
every random point in range makes `Assign` return a host that serves the
type (the failure branch is unreachable), the code's total weight is the sum
of capacities over entries containing the type, and the number of points
electing a registered host equals its capacity when it serves the type and
zero otherwise. -/
theorem assign_weighted_distribution (pt : String) (m : Registry)
    (hsorted : ∀ p ∈ m, List.Sorted strRel p.2.ProblemTypes)
    (hpos : ∀ p ∈ m, 0 < p.2.Capacity)
    (hnd : (m.map Prod.fst).Nodup)
    (hW : 0 < totalWeight pt m) :
    totalWeight pt m = eligibleWeight pt m ∧
    (∀ point : Int, 0 ≤ point → point < totalWeight pt m →
      ∃ host r, Assign point pt m = .ok host ∧ (host, r) ∈ m ∧ pt ∈ r.ProblemTypes) ∧
    (∀ point : Int, 0 ≤ point → point < totalWeight pt m →
      ¬(Assign point pt m = .error "failed to find daycare, please report this error")) ∧
    (∀ host r, (host, r) ∈ m →
      countAssigned pt m host = if pt ∈ r.ProblemTypes then r.Capacity.toNat else 0) := by
  have htw0 : ¬(totalWeight pt m = 0) := by omega
  have hok : ∀ point : Int, 0 ≤ point → point < totalWeight pt m →
      ∃ host r, Assign point pt m = .ok host ∧ (host, r) ∈ m ∧ pt ∈ r.ProblemTypes := by
    intro point hp0 hplt
    have hsome := assignLoop_isSome pt m point 0 hp0 (by omega)
    obtain ⟨host, hhost⟩ := Option.isSome_iff_exists.mp hsome
    obtain ⟨r, hmem, hserv⟩ := assignLoop_mem_serves pt m point 0 host hp0 hhost
    refine ⟨host, r, ?_, hmem, (servesB_iff_mem (hsorted (host, r) hmem) pt).mp hserv⟩
    unfold Assign
    rw [if_neg htw0, hhost]
  refine ⟨totalWeight_eq_eligibleWeight pt m hsorted, hok, ?_, ?_⟩
  · intro point hp0 hplt heq
    obtain ⟨host, r, hA, _, _⟩ := hok point hp0 hplt
    rw [hA] at heq
    cases heq
  · intro host r hmem
    rw [countAssigned_eq pt m host htw0, countP_walk pt m host hpos hnd,
        regLookup_of_mem m hnd hmem]
    show (if servesB pt r = true then r.Capacity.toNat else 0) = _
    by_cases hserv : servesB pt r = true
    · rw [if_pos hserv, if_pos ((servesB_iff_mem (hsorted (host, r) hmem) pt).mp hserv)]
    · rw [if_neg hserv,
          if_neg (fun hm2 => hserv ((servesB_iff_mem (hsorted (host, r) hmem) pt).mpr hm2))]

/-- Witness for C2 at a concrete input: the skewed two-worker registry. -/
theorem assign_weighted_distribution_witness :
    ∃ host r, Assign 0 "gounittest" fixtureRegistry = .ok host ∧
      (host, r) ∈ fixtureRegistry ∧ "gounittest" ∈ r.ProblemTypes :=
  (assign_weighted_distribution "gounittest" fixtureRegistry (by decide) (by decide)
    (by decide) (by decide)).2.1 0 (by decide) (by decide)

/-- C6: `Assign` returns the no-eligible-daycare error exactly when the sum
of capacities over hosts whose (sorted) problem-type lists contain the
requested type is zero; a type served by no host always yields that error;
and with an eligible host present, every in-range point yields a hostname
and no error. -/
theorem assign_no_eligible_iff (pt : String) (m : Registry)
    (hsorted : ∀ p ∈ m, List.Sorted strRel p.2.ProblemTypes)
    (hpos : ∀ p ∈ m, 0 < p.2.Capacity) :
    (∀ point : Int,
      Assign point pt m = .error "no eligible daycare found" ↔
        eligibleWeight pt m = 0) ∧
    ((∀ p ∈ m, ¬(pt ∈ p.2.ProblemTypes)) →
      ∀ point : Int, Assign point pt m = .error "no eligible daycare found") ∧
    (∀ host r, (host, r) ∈ m → pt ∈ r.ProblemTypes →
      ∀ point : Int, 0 ≤ point → point < totalWeight pt m →
        ∃ h2, Assign point pt m = .ok h2) := by
  have hew : totalWeight pt m = eligibleWeight pt m :=
    totalWeight_eq_eligibleWeight pt m hsorted
  have hiff : ∀ point : Int,
      Assign point pt m = .error "no eligible daycare found" ↔
        eligibleWeight pt m = 0 := by
    intro point
    rw [← hew]
    constructor
    · intro hA
      by_contra htw
      unfold Assign at hA
      rw [if_neg htw] at hA
      cases hwalk : assignLoop pt point 0 m with
      | some h2 =>
          rw [hwalk] at hA
          cases hA
      | none =>
          rw [hwalk] at hA
          injection hA with hstr
          exact absurd hstr (by decide)
    · intro htw
      unfold Assign
      rw [if_pos htw]
  refine ⟨hiff, ?_, ?_⟩
  · intro hnone point
    apply (hiff point).mpr
    rw [← hew]
    apply totalWeight_eq_zero_of_none
    intro p hp hserv
    exact hnone p hp ((servesB_iff_mem (hsorted p hp) pt).mp hserv)
  · intro host r hmem hserves point hp0 hplt
    have htw0 : ¬(totalWeight pt m = 0) := by
      have hpo := totalWeight_pos pt m hpos hmem
        ((servesB_iff_mem (hsorted (host, r) hmem) pt).mpr hserves)
      omega
    have hsome := assignLoop_isSome pt m point 0 hp0 (by omega)
    obtain ⟨h2, hh2⟩ := Option.isSome_iff_exists.mp hsome
    refine ⟨h2, ?_⟩
    unfold Assign
    rw [if_neg htw0, hh2]

/-- Witness for C6 at a concrete input: an unknown problem type yields the
no-eligible-daycare error. -/
theorem assign_no_eligible_iff_witness :
    Assign 0 "unknownType" fixtureRegistry = .error "no eligible daycare found" :=
  (assign_no_eligible_iff "unknownType" fixtureRegistry (by decide) (by decide)).2.1
    (by decide) 0

/-- C3 counterexample: `Assign` by itself performs no eviction.  On a
registry holding one entry 100 seconds old (far beyond the 20-second
liveness bound), `Assign` still returns that host, and the entry carries its
full weight. -/
theorem assign_returns_stale_host :
    ((100 * nsPerSecond) - regStale.Time > 2 * daycareRegistrationInterval) ∧
    totalWeight "gounittest" staleRegistry = 5 ∧
    Assign 0 "gounittest" staleRegistry = .ok "old" :=
  ⟨by decide, by decide, rfl⟩

/-- C3 amended: eviction happens in the callers (the registration endpoints
run `Expire` before reading); composed with `Expire`, `Assign` never returns
a host whose registration is more than twice the registration interval old,
and the stale entries contribute nothing: the post-expiry total weight plus
the stale entries' total weight is the full registry's total weight. -/
theorem assign_after_expire (now : Int) (pt : String) (m : Registry) :
    (∀ (point : Int) (host : String), 0 ≤ point →
      Assign point pt (Expire now m) = .ok host →
      ∃ r, (host, r) ∈ m ∧ servesB pt r = true ∧
        ¬(now - r.Time > 2 * daycareRegistrationInterval)) ∧
    totalWeight pt (Expire now m) +
      totalWeight pt (m.filter
        (fun p => decide (now - p.2.Time > 2 * daycareRegistrationInterval))) =
      totalWeight pt m := by
  refine ⟨?_, totalWeight_expire_partition now pt m⟩
  intro point host hp0 hA
  unfold Assign at hA
  by_cases htw : totalWeight pt (Expire now m) = 0
  · rw [if_pos htw] at hA
    cases hA
  · rw [if_neg htw] at hA
    cases hwalk : assignLoop pt point 0 (Expire now m) with
    | none =>
        rw [hwalk] at hA
        cases hA
    | some h2 =>
        rw [hwalk] at hA
        injection hA with hh2
        rw [← hh2]
        obtain ⟨r, hmem, hserv⟩ :=
          assignLoop_mem_serves pt (Expire now m) point 0 h2 hp0 hwalk
        unfold Expire at hmem
        rw [List.mem_filter] at hmem
        refine ⟨r, hmem.1, hserv, ?_⟩
        have hlive := hmem.2
        simp only [Bool.not_eq_true', decide_eq_false_iff_not] at hlive
        exact hlive

/-- Witness for C3's amended theorem at a concrete input: 15 seconds after
registration the worker is still live and assignable. -/
theorem assign_after_expire_witness :
    ∃ r, ("hostA", r) ∈ fixtureRegistry ∧ servesB "gounittest" r = true ∧
      ¬((15 * nsPerSecond) - r.Time > 2 * daycareRegistrationInterval) :=
  (assign_after_expire (15 * nsPerSecond) "gounittest" fixtureRegistry).1 0 "hostA"
    (by decide) rfl

/-- C8 counterexample: `Insert` performs no capacity validation.  A
correctly signed registration with `Capacity = 0` passes every check and is
stored in the registry with capacity zero. -/
theorem insert_stores_zero_capacity :
    (Insert (1760198399 * nsPerSecond) "secret" "1.9.6" zeroCapReg []).1 = none ∧
    regLookup (Insert (1760198399 * nsPerSecond) "secret" "1.9.6" zeroCapReg []).2
        "zerohost" =
      some (cleanedReg (1760198399 * nsPerSecond) zeroCapReg) ∧
    (cleanedReg (1760198399 * nsPerSecond) zeroCapReg).Capacity = 0 := by
  have h := Insert_fst_eq_none (1760198399 * nsPerSecond) "secret" "1.9.6" zeroCapReg []
    rfl rfl (by decide)
  rw [h]
  exact ⟨rfl, regLookup_mapInsert_self [] zeroCapReg.Hostname _, rfl⟩

/-- C8 amended: the code's only capacity check is in the daycare worker's
own startup, not in the TA's `Insert`; within the TA, positivity is a
preserved invariant: if every stored registration has positive capacity,
then after `Expire`, and after `Insert` of a positive-capacity
registration, every stored registration still has positive capacity. -/
theorem capacity_positivity_preserved (now : Int) (secret ver : String)
    (reg : DaycareRegistration) (m : Registry)
    (hm : ∀ p ∈ m, 0 < p.2.Capacity) :
    (∀ p ∈ Expire now m, 0 < p.2.Capacity) ∧
    (0 < reg.Capacity → ∀ p ∈ (Insert now secret ver reg m).2, 0 < p.2.Capacity) := by
  constructor
  · intro p hp
    unfold Expire at hp
    exact hm p (List.mem_of_mem_filter hp)
  · intro hreg p hp
    rw [Insert_eq] at hp
    split_ifs at hp
    · exact hm p hp
    · exact hm p hp
    · exact hm p hp
    · rcases mem_mapInsert m reg.Hostname (cleanedReg now reg) p hp with heq | hmem
      · rw [heq]
        exact hreg
      · exact hm p hmem

/-- Witness for C8's amended theorem at a concrete input: the entry stored
by a successful insertion of a positive-capacity registration into the empty
registry still has positive capacity. -/
theorem capacity_positivity_preserved_witness :
    0 < (cleanedReg (fixtureReg.Time + 1) fixtureReg).Capacity :=
  (capacity_positivity_preserved (fixtureReg.Time + 1) "secret" "1.9.6" fixtureReg []
    (by decide)).2 (by decide)
    (fixtureReg.Hostname, cleanedReg (fixtureReg.Time + 1) fixtureReg)
    (by
      rw [Insert_fst_eq_none (fixtureReg.Time + 1) "secret" "1.9.6" fixtureReg [] rfl rfl
        (by decide)]
      exact List.mem_singleton.mpr rfl)

/-- C9 counterexample: on a passing commit whose problem has no next step,
the advance condition holds yet `CommandGrade` neither advances (the
dotfile step and files are untouched) nor replays the transcript. -/
theorem commandGrade_passed_no_next_step :
    gradePassed passedCommit = true ∧
    commandGradePost noSteps passedCommit gradeFS0 =
      some (gradeFS0, GradeAction.completedAll) :=
  ⟨rfl, rfl⟩

/-- C9 amended: `CommandGrade` advances exactly when the saved commit has a
passed report card with score 1.0 AND a next step exists; advancing bumps
the dotfile step by one; a passing commit with no next step changes nothing
and replays nothing; any non-passing commit changes nothing and replays the
transcript. -/
theorem commandGrade_characterization (steps : Int → Option ProblemStep)
    (c : Commit) (st : GradeFS) :
    (gradePassed c = false →
      commandGradePost steps c st =
        some (st, .replayed (c.Transcript.filterMap renderEvent))) ∧
    (gradePassed c = true → steps (c.Step + 1) = none →
      commandGradePost steps c st = some (st, .completedAll)) ∧
    (∀ st2 a, commandGradePost steps c st = some (st2, a) →
      ((a = .advanced ↔ (gradePassed c = true ∧ ¬(steps (c.Step + 1) = none))) ∧
       (¬(a = .advanced) → st2 = st) ∧
       (a = .advanced → st2.dotStep = st.dotStep + 1))) := by
  refine ⟨?_, ?_, ?_⟩
  · intro hf
    unfold commandGradePost
    rw [if_neg (by simp [hf])]
  · intro ht hn
    unfold commandGradePost
    rw [if_pos ht, hn]
  · intro st2 a heq
    by_cases hg : gradePassed c = true
    · cases hn : steps (c.Step + 1) with
      | none =>
          have hval : commandGradePost steps c st = some (st, .completedAll) := by
            unfold commandGradePost
            rw [if_pos hg, hn]
          rw [hval] at heq
          injection heq with heq2
          rw [Prod.mk.injEq] at heq2
          obtain ⟨h1, h2⟩ := heq2
          subst h1
          subst h2
          refine ⟨⟨fun hadv => ?_, fun hc => absurd rfl hc.2⟩, fun _ => rfl,
            fun hadv => ?_⟩
          · cases hadv
          · cases hadv
      | some ns =>
          cases ho : steps c.Step with
          | none =>
              have hval : commandGradePost steps c st = none := by
                simp only [commandGradePost, hg, hn, ho, if_true]
              rw [hval] at heq
              cases heq
          | some os =>
              cases hd : deleteOldFiles os.Files st.files with
              | none =>
                  have hval : commandGradePost steps c st = none := by
                    simp only [commandGradePost, hg, hn, ho, hd, if_true]
                  rw [hval] at heq
                  cases heq
              | some f1 =>
                  have hval : commandGradePost steps c st =
                      some ({ writeNewFiles ns.Files { st with files := f1 } with
                          dotStep :=
                            (writeNewFiles ns.Files { st with files := f1 }).dotStep + 1 },
                        .advanced) := by
                    simp only [commandGradePost, hg, hn, ho, hd, if_true]
                  rw [hval] at heq
                  injection heq with heq2
                  rw [Prod.mk.injEq] at heq2
                  obtain ⟨h1, h2⟩ := heq2
                  subst h2
                  refine ⟨⟨fun _ => ⟨hg, fun hc => Option.noConfusion hc⟩,
                    fun _ => rfl⟩, fun hna => absurd rfl hna, fun _ => ?_⟩
                  rw [← h1]
                  show (writeNewFiles ns.Files { st with files := f1 }).dotStep + 1 =
                    st.dotStep + 1
                  rw [writeNewFiles_dotStep ns.Files { st with files := f1 }]
    · have hval : commandGradePost steps c st =
          some (st, .replayed (c.Transcript.filterMap renderEvent)) := by
        unfold commandGradePost
        rw [if_neg hg]
      rw [hval] at heq
      injection heq with heq2
      rw [Prod.mk.injEq] at heq2
      obtain ⟨h1, h2⟩ := heq2
      subst h1
      subst h2
      refine ⟨⟨fun hadv => ?_, fun hc => absurd hc.1 hg⟩, fun _ => rfl, fun hadv => ?_⟩
      · cases hadv
      · cases hadv

/-- Witness for C9's amended theorem at a concrete input: a failed commit
replays its transcript and leaves the state unchanged. -/
theorem commandGrade_characterization_witness :
    commandGradePost noSteps failedCommit gradeFS0 =
      some (gradeFS0, .replayed (failedCommit.Transcript.filterMap renderEvent)) :=
  (commandGrade_characterization noSteps failedCommit gradeFS0).1 rfl

end Codegrinder
